import Mathlib

/-!
Verification of the observation aggregation and report-prompt assembly
pipeline of the siskon-safety-app Netlify function `analyze.js`.

The JavaScript source is shallowly embedded: raw observations become a
record of optional string fields, JavaScript objects used as counters
become association lists in key-insertion order, and `Array.prototype.sort`
(stable since ES2019) becomes a stable insertion sort.  Counter values are
naturals (exact in binary64 below 2 ^ 53); the one inexact number
computation, the rendered percentage, is modelled with an explicit
IEEE-754 binary64 rounding function `flDouble` applied to the division and
to the multiplication, with `Math.round` taking the floor of the exact
double value plus one half (ECMA-262 defines it on the exact value).
The opaque `new Date(s).getTime()` parser is a parameter `parse`.
-/

namespace Siskon

open List

/-- Insert `x` into `l` immediately before the first element `y` with
`le x y`.  Used by `insSort`. -/
def insertLe (le : α → α → Bool) (x : α) : List α → List α
  | [] => [x]
  | y :: ys => if le x y then x :: y :: ys else y :: insertLe le x ys

/-- Stable insertion sort.  `Array.prototype.sort` with a consistent
comparator is required (since ES2019) to produce the unique stable sort of
the list, which is what `insSort` computes; it is structurally recursive so
that concrete runs reduce inside the kernel. -/
def insSort (le : α → α → Bool) : List α → List α
  | [] => []
  | x :: xs => insertLe le x (insSort le xs)

/-- `String.prototype.toUpperCase`, character by character. -/
def jsToUpper (s : String) : String := ⟨s.data.map Char.toUpper⟩

/-- A raw safety observation as received in the request body.  An absent
JSON field is `none`; the empty string is falsy in JavaScript and is
treated like an absent field by the `||` defaulting idiom. -/
structure Obs where
  risk : Option String
  category : Option String
  location : Option String
  status : Option String
  description : Option String
  date : Option String
  observationDate : Option String
  createdAt : Option String
  created : Option String
  timestamp : Option String
deriving DecidableEq

/-- JavaScript `v || d` for an optional string field: the default replaces
both an absent field and the falsy empty string. -/
def jsOr (v : Option String) (d : String) : String :=
  match v with
  | none => d
  | some s => if s = "" then d else s

/-- JavaScript `s || d` for a string already in hand. -/
def jsOrStr (s d : String) : String :=
  if s = "" then d else s

/-- `normRisk` from the source: `String(r || "MEDIUM").toUpperCase()`. -/
def normRisk (r : Option String) : String :=
  jsToUpper (jsOr r "MEDIUM")

/-- `getDate` from the source: the first truthy date-like field, else `""`. -/
def getDate (o : Obs) : String :=
  jsOr o.date (jsOr o.observationDate (jsOr o.createdAt (jsOr o.created (jsOr o.timestamp ""))))

/-- A JavaScript object used as a counter, as an association list in key
insertion order.  `bump` models `m[k] = (m[k] || 0) + 1`: an existing key
is incremented in place, a new key is appended last. -/
def bump : List (String × Nat) → String → List (String × Nat)
  | [], k => [(k, 1)]
  | (k', v) :: rest, k =>
      if k' = k then (k', v + 1) :: rest else (k', v) :: bump rest k

/-- `m[k] || 0`. -/
def getCount : List (String × Nat) → String → Nat
  | [], _ => 0
  | (k', v) :: rest, k => if k' = k then v else getCount rest k

/-- The `riskCount` accumulator of the source: initialized with the three
canonical keys at zero, then bumped at `normRisk(obs.risk)` for every
observation. -/
def riskCount (data : List Obs) : List (String × Nat) :=
  data.foldl (fun m o => bump m (normRisk o.risk))
    [("HIGH", 0), ("MEDIUM", 0), ("LOW", 0)]

/-- The `categories` frequency object of the source: keys created lazily
on first occurrence. -/
def categories (data : List Obs) : List (String × Nat) :=
  data.foldl (fun m o => bump m (jsOr o.category "Unknown")) []

/-- The comparator `(a, b) => b[1] - a[1]`: `a` may come before `b`
exactly when the count of `b` is at most the count of `a`. -/
def byCountDesc (a b : String × Nat) : Bool := decide (b.2 ≤ a.2)

/-- `Object.entries(categories).sort((a, b) => b[1] - a[1]).slice(0, 5)`:
a stable sort by count descending, then the first five entries. -/
def topCategories (data : List Obs) : List (String × Nat) :=
  (insSort byCountDesc (categories data)).take 5

/-- One step of the `locations` Set accumulation of the source:
`if (obs.location) locations.add(obs.location)`.  A JavaScript Set keeps
each string once, in insertion order. -/
def addLocation (s : List String) (o : Obs) : List String :=
  match o.location with
  | none => s
  | some loc => if loc = "" then s else if loc ∈ s then s else s ++ [loc]

/-- The contents of the `locations` Set after the statistics pass. -/
def locationsList (data : List Obs) : List String :=
  data.foldl addLocation []

/-- `Array.from(locations).length`. -/
def locationsAffected (data : List Obs) : Nat :=
  (locationsList data).length

/-- The `statistics` record returned to the caller. -/
structure Statistics where
  totalObservations : Nat
  riskDistribution : List (String × Nat)
  topCategories : List (String × Nat)
  locationsAffected : Nat
deriving DecidableEq

/-- The statistics computed over ALL observations. -/
def statistics (data : List Obs) : Statistics :=
  ⟨data.length, riskCount data, topCategories data, locationsAffected data⟩

/-- The pattern key of the source: `cat + "|" + loc` after defaulting. -/
def obsKey (o : Obs) : String :=
  jsOr o.category "Unknown" ++ "|" ++ jsOr o.location "Unknown location"

/-- `if (!patternMap[key]) patternMap[key] = []; patternMap[key].push(obs)`:
push into the bucket of an existing key, or append a new singleton bucket. -/
def addPattern : List (String × List Obs) → String → Obs → List (String × List Obs)
  | [], k, o => [(k, [o])]
  | (k', l) :: rest, k, o =>
      if k' = k then (k', l ++ [o]) :: rest else (k', l) :: addPattern rest k o

/-- The `patternMap` object: buckets of observations keyed by
`category|location`, in key insertion order. -/
def patternMap (data : List Obs) : List (String × List Obs) :=
  data.foldl (fun m o => addPattern m (obsKey o) o) []

/-- The comparator `(a, b) => b.length - a.length`. -/
def bySizeDesc (a b : List Obs) : Bool := decide (b.length ≤ a.length)

/-- `Object.values(patternMap).filter(arr => arr.length >= 3)
.sort((a, b) => b.length - a.length)`. -/
def repeatingClusters (data : List Obs) : List (List Obs) :=
  insSort bySizeDesc (((patternMap data).map Prod.snd).filter (fun l => decide (3 ≤ l.length)))

/-- Two observations land in the same bucket of `patternMap`. -/
def sameCluster (data : List Obs) (o1 o2 : Obs) : Prop :=
  ∃ kl ∈ patternMap data, o1 ∈ kl.2 ∧ o2 ∈ kl.2

instance (data : List Obs) (o1 o2 : Obs) : Decidable (sameCluster data o1 o2) := by
  unfold sameCluster
  infer_instance

/-- The sample cap `MAX_EXAMPLES` of the `exampleObs` variant. -/
def MAX_EXAMPLES : Nat := 60

def isHigh (o : Obs) : Bool := normRisk o.risk == "HIGH"

/-- The sort key `new Date(getDate(o) || "1970-01-01").getTime()`, with the
date parser held abstract. -/
def sortKey (parse : String → Int) (o : Obs) : Int :=
  parse (jsOrStr (getDate o) "1970-01-01")

/-- The comparator `(a, b) => db - da`: newest date first. -/
def newestFirst (parse : String → Int) (a b : Obs) : Bool :=
  decide (sortKey parse b ≤ sortKey parse a)

/-- Step 1 source list: HIGH observations, newest first, `slice(0, 30)`. -/
def criticalHigh (parse : String → Int) (data : List Obs) : List Obs :=
  (insSort (newestFirst parse) (data.filter isHigh)).take 30

/-- `forEach` pushing guarded by `if (exampleObs.length < cap)`. -/
def pushCapped (cap : Nat) (acc xs : List Obs) : List Obs :=
  xs.foldl (fun a o => if a.length < cap then a ++ [o] else a) acc

/-- The `exampleObs` sample of the source: all sliced HIGH observations,
then up to three members of each recurring cluster, then, if the result is
still smaller than ten, up to ten non-HIGH observations, every push guarded
by the cap. -/
def exampleObs (parse : String → Int) (data : List Obs) : List Obs :=
  let e1 := pushCapped MAX_EXAMPLES [] (criticalHigh parse data)
  let e2 := (repeatingClusters data).foldl
    (fun a c => pushCapped MAX_EXAMPLES a (c.take 3)) e1
  if e2.length < 10 then
    pushCapped MAX_EXAMPLES e2 ((data.filter (fun o => !(isHigh o))).take 10)
  else e2

/-- The sample cap of the `takeFrom` variant. -/
def MAX_OBS_FOR_PROMPT : Nat := 140

def highs (data : List Obs) : List Obs := data.filter isHigh

def mediums (data : List Obs) : List Obs :=
  data.filter (fun o => normRisk o.risk == "MEDIUM")

def lows (data : List Obs) : List Obs :=
  data.filter (fun o => normRisk o.risk == "LOW")

/-- `takeFrom(highs); takeFrom(mediums); takeFrom(lows)`: pushes from each
list in turn while the trimmed list is below the cap. -/
def trimmed (data : List Obs) : List Obs :=
  (highs data ++ mediums data ++ lows data).take MAX_OBS_FOR_PROMPT

/-- `trimmed.length ? trimmed : data`. -/
def promptData (data : List Obs) : List Obs :=
  if trimmed data = [] then data else trimmed data

/-- Fuel-bounded floor of the base-2 logarithm of a natural number,
structurally recursive on the fuel so that concrete runs reduce inside the
kernel. -/
def natLog2F : Nat → Nat → Nat
  | 0, _ => 0
  | fuel + 1, n => if n ≤ 1 then 0 else natLog2F fuel (n / 2) + 1

/-- Floor of the base-2 logarithm, correct for 1 ≤ n < 2 ^ 256 (far beyond
every magnitude reachable in the percentage computation). -/
def natLog2 (n : Nat) : Nat := natLog2F 256 n

/-- Floor of the base-2 logarithm of the positive fraction p / q. -/
def qLog2P (p q : Nat) : Int :=
  let a := natLog2 p
  let b := natLog2 q
  if q * 2 ^ a ≤ p * 2 ^ b then (a : ℤ) - b else (a : ℤ) - b - 1

/-- Round the fraction a / b (b ≥ 1) to the nearest natural number, ties
to even — the IEEE-754 default rounding applied to a significand. -/
def rneFrac (a b : Nat) : Nat :=
  let f := a / b
  let r := a % b
  if 2 * r < b then f
  else if b < 2 * r then f + 1
  else if f % 2 = 0 then f else f + 1

/-- The IEEE-754 binary64 value nearest to the positive fraction p / q
(round to nearest, ties to even): a 53-bit significand selected at the
binade `qLog2P p q`.  Overflow and subnormal underflow are ignored — the
percentage computation stays far inside the normal range. -/
def flPos (p q : Nat) : ℚ :=
  let s : Int := 52 - qLog2P p q
  if 0 ≤ s then (rneFrac (p * 2 ^ s.toNat) q : ℚ) / 2 ^ s.toNat
  else (rneFrac p (q * 2 ^ (-s).toNat) : ℚ) * 2 ^ (-s).toNat

/-- Binary64 rounding of a rational: nonpositive inputs (only 0 is ever
reached) map to 0, positive inputs to the nearest double. -/
def flDouble (x : ℚ) : ℚ :=
  if x ≤ 0 then 0 else flPos x.num.toNat x.den

/-- `Math.round((totalHigh / totalObservations) * 100)` guarded by
`totalObservations > 0`: the division and the multiplication are each
rounded to binary64 by `flDouble`, and `Math.round` takes the floor of the
exact value of the resulting double plus one half. -/
def pctHigh (data : List Obs) : Int :=
  if 0 < data.length then
    ⌊flDouble (flDouble ((getCount (riskCount data) "HIGH" : ℚ) /
        (data.length : ℚ)) * 100) + 1 / 2⌋
  else 0

/-- The rendered percentage text: `` `${pctHigh}%` `` or `"0%"`. -/
def highPctText (data : List Obs) : String :=
  if 0 < data.length then toString (pctHigh data) ++ "%" else "0%"

/-- Exact integer rounding of count / total × 100, half rounded up,
computed with integer operations only; 0 when the total is 0. -/
def specPct (c t : Nat) : Nat :=
  if t = 0 then 0 else (200 * c + t) / (2 * t)

/-- The shape of the `data` field of a parsed request body. -/
inductive DataField where
  | absent
  | notList
  | list (l : List Obs)
deriving DecidableEq

/-- What the handler does with a request: reject it with a client error,
or run the statistics/sampling pipeline. -/
inductive HandlerOutcome where
  | clientError (message : String)
  | pipelineRun (stats : Statistics) (sampled : List Obs)
deriving DecidableEq

/-- The validation at the top of the handler,
`if (!data || !Array.isArray(data) || data.length === 0) return 400`,
followed by the core pipeline on a valid non-empty list. -/
def handlerCore (parse : String → Int) (df : DataField) : HandlerOutcome :=
  match df with
  | .absent => .clientError "No observations provided"
  | .notList => .clientError "No observations provided"
  | .list l =>
      if l.length = 0 then .clientError "No observations provided"
      else .pipelineRun (statistics l) (exampleObs parse l)

/-- The observation `{}` with every field absent. -/
def emptyObs : Obs :=
  ⟨none, none, none, none, none, none, none, none, none, none⟩

/-! ### Lemmas about the stable sort -/

theorem insertLe_perm (le : α → α → Bool) (x : α) (l : List α) :
    insertLe le x l ~ x :: l := by
  induction l with
  | nil => simp [insertLe]
  | cons y ys ih =>
    simp only [insertLe]
    by_cases h : le x y
    · simp [h]
    · simp only [if_neg h]
      exact (ih.cons y).trans (List.Perm.swap x y ys)

theorem insSort_perm (le : α → α → Bool) (l : List α) : insSort le l ~ l := by
  induction l with
  | nil => simp [insSort]
  | cons x xs ih => exact (insertLe_perm le x (insSort le xs)).trans (ih.cons x)

theorem mem_insSort (le : α → α → Bool) {l : List α} {a : α} :
    a ∈ insSort le l ↔ a ∈ l :=
  (insSort_perm le l).mem_iff

theorem length_insSort (le : α → α → Bool) (l : List α) :
    (insSort le l).length = l.length :=
  (insSort_perm le l).length_eq

theorem pairwise_insertLe (le : α → α → Bool)
    (trans : ∀ a b c, le a b = true → le b c = true → le a c = true)
    (total : ∀ a b, le a b = true ∨ le b a = true)
    (x : α) {l : List α} (h : l.Pairwise (fun a b => le a b = true)) :
    (insertLe le x l).Pairwise (fun a b => le a b = true) := by
  induction l with
  | nil => simp [insertLe]
  | cons y ys ih =>
    rcases List.pairwise_cons.mp h with ⟨hy, hys⟩
    by_cases hxy : le x y
    · simp only [insertLe, if_pos hxy]
      refine List.pairwise_cons.mpr ⟨?_, h⟩
      intro z hz
      rcases List.mem_cons.mp hz with rfl | hz
      · exact hxy
      · exact trans x y z hxy (hy z hz)
    · simp only [insertLe, if_neg hxy]
      refine List.pairwise_cons.mpr ⟨?_, ih hys⟩
      intro z hz
      rcases List.mem_cons.mp ((insertLe_perm le x ys).mem_iff.mp hz) with rfl | hz
      · rcases total z y with h' | h'
        · exact absurd h' hxy
        · exact h'
      · exact hy z hz

theorem pairwise_insSort (le : α → α → Bool)
    (trans : ∀ a b c, le a b = true → le b c = true → le a c = true)
    (total : ∀ a b, le a b = true ∨ le b a = true)
    (l : List α) :
    (insSort le l).Pairwise (fun a b => le a b = true) := by
  induction l with
  | nil => simp [insSort]
  | cons x xs ih => exact pairwise_insertLe le trans total x ih

theorem getCount_bump_self (m : List (String × Nat)) (k : String) :
    getCount (bump m k) k = getCount m k + 1 := by
  induction m with
  | nil => simp [bump, getCount]
  | cons p rest ih =>
    obtain ⟨k', v⟩ := p
    by_cases h : k' = k
    · simp [bump, getCount, h]
    · simp [bump, getCount, h, ih]

theorem getCount_bump_other (m : List (String × Nat)) {k k' : String}
    (h : k' ≠ k) : getCount (bump m k) k' = getCount m k' := by
  have hk : k ≠ k' := Ne.symm h
  induction m with
  | nil => simp [bump, getCount, hk]
  | cons p rest ih =>
    obtain ⟨k'', v⟩ := p
    by_cases h2 : k'' = k
    · subst h2
      simp [bump, getCount, hk]
    · simp only [bump, if_neg h2, getCount]
      by_cases h3 : k'' = k'
      · simp [h3]
      · simp [h3, ih]

theorem sum_bump (m : List (String × Nat)) (k : String) :
    ((bump m k).map Prod.snd).sum = (m.map Prod.snd).sum + 1 := by
  induction m with
  | nil => simp [bump]
  | cons p rest ih =>
    obtain ⟨k', v⟩ := p
    by_cases h : k' = k
    · simp [bump, h]
      omega
    · simp [bump, h, ih]
      omega

theorem keys_bump_mono (m : List (String × Nat)) {k' : String} (k : String)
    (h : k' ∈ m.map Prod.fst) : k' ∈ (bump m k).map Prod.fst := by
  induction m with
  | nil => cases h
  | cons p rest ih =>
    obtain ⟨k'', v⟩ := p
    by_cases h2 : k'' = k
    · simpa [bump, h2] using (by simpa [h2] using h : k' = k ∨ k' ∈ rest.map Prod.fst)
    · simp only [List.map_cons, List.mem_cons] at h
      rcases h with rfl | h
      · simp [bump, h2]
      · simp [bump, h2, ih h]

theorem sum_foldl_bump (f : Obs → String) (data : List Obs)
    (m : List (String × Nat)) :
    ((data.foldl (fun m o => bump m (f o)) m).map Prod.snd).sum
      = (m.map Prod.snd).sum + data.length := by
  induction data generalizing m with
  | nil => simp
  | cons o rest ih =>
    simp only [List.foldl_cons, ih (bump m (f o)), sum_bump, List.length_cons]
    omega

theorem keys_foldl_bump (f : Obs → String) (data : List Obs)
    (m : List (String × Nat)) {k : String} (h : k ∈ m.map Prod.fst) :
    k ∈ (data.foldl (fun m o => bump m (f o)) m).map Prod.fst := by
  induction data generalizing m with
  | nil => exact h
  | cons o rest ih => exact ih (bump m (f o)) (keys_bump_mono m (f o) h)

/-- The canonical-bucket sum over a fold, when every folded observation
has a canonical normalized risk. -/
theorem canonical_sum_foldl (data : List Obs) (m : List (String × Nat))
    (h : ∀ o ∈ data, normRisk o.risk = "HIGH" ∨ normRisk o.risk = "MEDIUM" ∨
      normRisk o.risk = "LOW") :
    getCount (data.foldl (fun m o => bump m (normRisk o.risk)) m) "HIGH" +
      getCount (data.foldl (fun m o => bump m (normRisk o.risk)) m) "MEDIUM" +
      getCount (data.foldl (fun m o => bump m (normRisk o.risk)) m) "LOW"
      = getCount m "HIGH" + getCount m "MEDIUM" + getCount m "LOW" + data.length := by
  induction data generalizing m with
  | nil => simp
  | cons o rest ih =>
    have hrest : ∀ x ∈ rest, normRisk x.risk = "HIGH" ∨ normRisk x.risk = "MEDIUM" ∨
        normRisk x.risk = "LOW" := fun x hx => h x (List.mem_cons_of_mem o hx)
    simp only [List.foldl_cons, ih (bump m (normRisk o.risk)) hrest, List.length_cons]
    rcases h o (List.mem_cons_self o rest) with ho | ho | ho <;> rw [ho]
    · rw [getCount_bump_self, getCount_bump_other m (by decide),
        getCount_bump_other m (by decide)]
      omega
    · rw [getCount_bump_self, getCount_bump_other m (by decide),
        getCount_bump_other m (by decide)]
      omega
    · rw [getCount_bump_self, getCount_bump_other m (by decide),
        getCount_bump_other m (by decide)]
      omega

/-! ### C10: the risk distribution inventory -/

/-- C10: every observation bumps exactly one key of the risk-distribution
object, a non-canonical normalized risk string getting a key of its own, so
the sum of the counts over all keys equals `totalObservations`, and the
keys HIGH, MEDIUM and LOW are always present (their counts are naturals,
hence trivially ≥ 0). -/
theorem riskDistribution_inventory (data : List Obs) :
    ((statistics data).riskDistribution.map Prod.snd).sum
      = (statistics data).totalObservations ∧
    "HIGH" ∈ (statistics data).riskDistribution.map Prod.fst ∧
    "MEDIUM" ∈ (statistics data).riskDistribution.map Prod.fst ∧
    "LOW" ∈ (statistics data).riskDistribution.map Prod.fst := by
  refine ⟨?_, ?_, ?_, ?_⟩
  · simpa [statistics, riskCount] using
      sum_foldl_bump (fun o => normRisk o.risk) data
        [("HIGH", 0), ("MEDIUM", 0), ("LOW", 0)]
  · exact keys_foldl_bump (fun o => normRisk o.risk) data _ (by decide)
  · exact keys_foldl_bump (fun o => normRisk o.risk) data _ (by decide)
  · exact keys_foldl_bump (fun o => normRisk o.risk) data _ (by decide)

/-! ### C1: the canonical-bucket sum -/

/-- An observation whose risk value is present but not one of the three
canonical levels: `normRisk` upper-cases it to `"CRITICAL"`, which becomes
a fourth bucket instead of being normalized to MEDIUM. -/
def unrecognizedObs : Obs :=
  ⟨some "critical", none, none, none, none, none, none, none, none, none⟩

/-- C1 (counterexample): for the single observation with risk
`"critical"`, HIGH + MEDIUM + LOW = 0 while `totalObservations` = 1: an
unrecognized risk value is NOT normalized to MEDIUM, so the claimed sum
fails. -/
theorem canonicalSum_cex :
    ¬ (getCount (statistics [unrecognizedObs]).riskDistribution "HIGH" +
       getCount (statistics [unrecognizedObs]).riskDistribution "MEDIUM" +
       getCount (statistics [unrecognizedObs]).riskDistribution "LOW" =
       (statistics [unrecognizedObs]).totalObservations) := by decide

/-- C1 (amended): HIGH + MEDIUM + LOW = totalObservations holds whenever
every observation's normalized risk is one of the three canonical strings
(in particular an absent risk defaults to MEDIUM); an unrecognized value
instead starts a bucket of its own, and then the canonical sum falls short
of the total. -/
theorem canonicalSum_of_canonical_risks (data : List Obs)
    (h : ∀ o ∈ data, normRisk o.risk = "HIGH" ∨ normRisk o.risk = "MEDIUM" ∨
      normRisk o.risk = "LOW") :
    getCount (statistics data).riskDistribution "HIGH" +
      getCount (statistics data).riskDistribution "MEDIUM" +
      getCount (statistics data).riskDistribution "LOW" =
      (statistics data).totalObservations := by
  have := canonical_sum_foldl data [("HIGH", 0), ("MEDIUM", 0), ("LOW", 0)] h
  simpa [statistics, riskCount, getCount] using this

/-- C1 (witness): the amended sum at a concrete three-observation input
whose risks are `"high"`, absent, and `"LOW"`. -/
theorem canonicalSum_witness :
    getCount (statistics [⟨some "high", none, none, none, none, none, none,
        none, none, none⟩, emptyObs, ⟨some "LOW", none, none, none, none,
        none, none, none, none, none⟩]).riskDistribution "HIGH" +
      getCount (statistics [⟨some "high", none, none, none, none, none, none,
        none, none, none⟩, emptyObs, ⟨some "LOW", none, none, none, none,
        none, none, none, none, none⟩]).riskDistribution "MEDIUM" +
      getCount (statistics [⟨some "high", none, none, none, none, none, none,
        none, none, none⟩, emptyObs, ⟨some "LOW", none, none, none, none,
        none, none, none, none, none⟩]).riskDistribution "LOW" =
      (statistics [⟨some "high", none, none, none, none, none, none, none,
        none, none⟩, emptyObs, ⟨some "LOW", none, none, none, none, none,
        none, none, none, none⟩]).totalObservations :=
  canonicalSum_of_canonical_risks _ (by decide)

/-! ### C7: the normalizer contract -/

/-- C7: the normalizer upper-cases a present non-empty risk value and
substitutes MEDIUM for an absent one, substitutes "Unknown" for a missing
category and "Unknown location" for a missing location, and, being a total
Lean function, never raises; the observation `{}` normalizes to
risk MEDIUM, category Unknown, location "Unknown location". -/
theorem normalizer_contract (o : Obs) :
    (o.risk = none → normRisk o.risk = "MEDIUM") ∧
    (∀ s, o.risk = some s → s ≠ "" → normRisk o.risk = jsToUpper s) ∧
    (o.category = none → jsOr o.category "Unknown" = "Unknown") ∧
    (o.location = none → jsOr o.location "Unknown location" = "Unknown location") ∧
    normRisk emptyObs.risk = "MEDIUM" ∧
    jsOr emptyObs.category "Unknown" = "Unknown" ∧
    jsOr emptyObs.location "Unknown location" = "Unknown location" := by
  refine ⟨?_, ?_, ?_, ?_, by decide, by decide, by decide⟩
  · intro h
    rw [h]
    decide
  · intro s hs hne
    rw [hs]
    simp [normRisk, jsOr, hne]
  · intro h
    rw [h]
    decide
  · intro h
    rw [h]
    decide

/-- C7 (witness): the contract applied to the concrete observation with
risk `"high"` and all other fields absent. -/
theorem normalizer_contract_witness :
    normRisk (⟨some "high", none, none, none, none, none, none, none, none,
        none⟩ : Obs).risk = jsToUpper "high" ∧
    jsOr (⟨some "high", none, none, none, none, none, none, none, none,
        none⟩ : Obs).category "Unknown" = "Unknown" :=
  ⟨(normalizer_contract _).2.1 "high" rfl (by decide),
   (normalizer_contract _).2.2.1 rfl⟩

/-! ### C9: the empty-input guard -/

/-- C9: when the data field is absent, not a list, or an empty list, the
handler returns the client error before the pipeline runs; no statistics
record and no sample are produced. -/
theorem invalid_input_client_error (parse : String → Int) (df : DataField)
    (h : df = .absent ∨ df = .notList ∨ df = .list []) :
    handlerCore parse df = .clientError "No observations provided" := by
  rcases h with rfl | rfl | rfl <;> simp [handlerCore]

/-- C9 (witness): the guard at the concrete absent data field. -/
theorem invalid_input_client_error_witness :
    handlerCore (fun _ => 0) .absent = .clientError "No observations provided" :=
  invalid_input_client_error (fun _ => 0) .absent (Or.inl rfl)

/-! ### C6: the distinct-location count -/

/-- The `locations` accumulation keeps a duplicate-free list whose finset
is the finset of present non-empty raw location values seen so far. -/
theorem locations_foldl_spec (data : List Obs) (acc : List String)
    (hnd : acc.Nodup) :
    (data.foldl addLocation acc).Nodup ∧
    (data.foldl addLocation acc).toFinset =
      acc.toFinset ∪ ((data.filterMap Obs.location).filter (fun s => s != "")).toFinset := by
  induction data generalizing acc with
  | nil => simpa using hnd
  | cons o rest ih =>
    simp only [List.foldl_cons]
    cases ho : o.location with
    | none =>
      have hstep : addLocation acc o = acc := by simp [addLocation, ho]
      rw [hstep, List.filterMap_cons, ho]
      exact ih acc hnd
    | some loc =>
      by_cases hempty : loc = ""
      · have hstep : addLocation acc o = acc := by simp [addLocation, ho, hempty]
        rw [hstep, List.filterMap_cons, ho]
        simpa [hempty] using ih acc hnd
      · by_cases hmem : loc ∈ acc
        · have hstep : addLocation acc o = acc := by simp [addLocation, ho, hempty, hmem]
          rw [hstep, List.filterMap_cons, ho]
          obtain ⟨h1, h2⟩ := ih acc hnd
          refine ⟨h1, ?_⟩
          rw [h2]
          simp only [List.filter_cons, hempty, bne_iff_ne, ne_eq, not_false_iff,
            if_pos, List.toFinset_cons]
          rw [Finset.union_insert, Finset.insert_eq_self.mpr]
          exact Finset.mem_union_left _ (List.mem_toFinset.mpr hmem)
        · have hstep : addLocation acc o = acc ++ [loc] := by
            simp [addLocation, ho, hempty, hmem]
          have hnd2 : (acc ++ [loc]).Nodup := by
            simp [List.nodup_append, hnd, hmem]
          rw [hstep, List.filterMap_cons, ho]
          obtain ⟨h1, h2⟩ := ih (acc ++ [loc]) hnd2
          refine ⟨h1, ?_⟩
          rw [h2]
          simp only [List.filter_cons, hempty, bne_iff_ne, ne_eq, not_false_iff,
            if_pos, List.toFinset_cons, List.toFinset_append, List.toFinset_cons,
            List.toFinset_nil]
          rw [Finset.union_insert, Finset.union_insert]
          simp

/-- C6 (amended): `locationsAffected` equals the number of distinct values
among the raw location fields that are present and non-empty; a missing
location is not defaulted to "Unknown location" here and is simply not
counted. -/
theorem locationsAffected_distinct_present (data : List Obs) :
    (statistics data).locationsAffected =
      ((data.filterMap Obs.location).filter (fun s => s != "")).toFinset.card := by
  obtain ⟨hnd, hfs⟩ := locations_foldl_spec data [] (by simp)
  have hfs' : (locationsList data).toFinset =
      ((data.filterMap Obs.location).filter (fun s => s != "")).toFinset := by
    simpa [locationsList] using hfs
  calc (statistics data).locationsAffected
      = (locationsList data).length := rfl
    _ = (locationsList data).toFinset.card := (List.toFinset_card_of_nodup hnd).symm
    _ = _ := by rw [hfs']

/-- The count described by the claim's words for C6: the number of
distinct non-empty location strings after normalization, i.e. after the
"Unknown location" default has been applied to missing locations. -/
def specLocationsAffected (data : List Obs) : Nat :=
  ((data.map (fun o => jsOr o.location "Unknown location")).filter
    (fun s => s != "")).dedup.length

/-- C6 (counterexample): for the single observation `{}` the code counts 0
locations (a missing location is never added to the set), while the count
after applying the normalization default would be 1 (the defaulted value
"Unknown location" is non-empty and distinct). -/
theorem locationsAffected_default_cex :
    ¬ ((statistics [emptyObs]).locationsAffected =
        specLocationsAffected [emptyObs]) := by decide

/-! ### C8: the rendered percentage -/

/-- Rounding a percentage ratio computed in exact rational arithmetic
agrees with the all-integer rounding formula. -/
theorem round_ratio_eq_specPct (c t : Nat) (ht : 0 < t) :
    round (((c : ℚ) / (t : ℚ)) * 100) = (specPct c t : Int) := by
  have ht' : (t : ℚ) ≠ 0 := Nat.cast_ne_zero.mpr (Nat.pos_iff_ne_zero.mp ht)
  rw [round_eq]
  have key : ((c : ℚ) / t) * 100 + 1 / 2
      = ((200 * c + t : Nat) : ℚ) / ((2 * t : Nat) : ℚ) := by
    push_cast
    field_simp
    ring
  rw [key]
  have hnn : (0 : ℚ) ≤ ((200 * c + t : Nat) : ℚ) / ((2 * t : Nat) : ℚ) := by
    positivity
  rw [← Int.natCast_floor_eq_floor hnn, Nat.floor_div_eq_div]
  simp [specPct, Nat.pos_iff_ne_zero.mp ht]

/-- Exact integer rounding of count / total × 100, written as an explicit
floor; used to compare the binary64 evaluation against `specPct`. -/
theorem specPct_eq_floor (c t : Nat) (ht : 0 < t) :
    (specPct c t : Int) = ⌊((100 * c : Nat) : ℚ) / (t : ℚ) + 1 / 2⌋ := by
  have h := round_ratio_eq_specPct c t ht
  rw [round_eq] at h
  rw [← h]
  congr 1
  push_cast
  ring

/-! ### C5: the top-category ranking -/

theorem addPattern_conf (m : List (String × List Obs)) (k : String) (o : Obs)
    (hm : ∀ p ∈ m, ∀ x ∈ p.2, obsKey x = p.1) (ho : obsKey o = k) :
    ∀ p ∈ addPattern m k o, ∀ x ∈ p.2, obsKey x = p.1 := by
  induction m with
  | nil =>
    intro p hp x hx
    simp only [addPattern, List.mem_singleton] at hp
    subst hp
    simp only [List.mem_singleton] at hx
    subst hx
    exact ho
  | cons q rest ih =>
    obtain ⟨k', l⟩ := q
    by_cases h : k' = k
    · simp only [addPattern, if_pos h]
      intro p hp x hx
      rcases List.mem_cons.mp hp with rfl | hp
      · rcases List.mem_append.mp hx with hx | hx
        · exact hm (k', l) (List.mem_cons_self _ _) x hx
        · simp only [List.mem_singleton] at hx
          subst hx
          rw [ho, h]
      · exact hm p (List.mem_cons_of_mem _ hp) x hx
    · simp only [addPattern, if_neg h]
      intro p hp x hx
      rcases List.mem_cons.mp hp with rfl | hp
      · exact hm (k', l) (List.mem_cons_self _ _) x hx
      · exact ih (fun p hp => hm p (List.mem_cons_of_mem _ hp)) p hp x hx

theorem patternMap_conf (data : List Obs) :
    ∀ p ∈ patternMap data, ∀ x ∈ p.2, obsKey x = p.1 := by
  have main : ∀ (l : List Obs) (m : List (String × List Obs)),
      (∀ p ∈ m, ∀ x ∈ p.2, obsKey x = p.1) →
      ∀ p ∈ l.foldl (fun m o => addPattern m (obsKey o) o) m, ∀ x ∈ p.2,
        obsKey x = p.1 := by
    intro l
    induction l with
    | nil => intro m hm; exact hm
    | cons o rest ih =>
      intro m hm
      exact ih _ (addPattern_conf m (obsKey o) o hm rfl)
  exact main data [] (by simp)

theorem keys_addPattern (m : List (String × List Obs)) (k : String) (o : Obs) :
    (addPattern m k o).map Prod.fst =
      if k ∈ m.map Prod.fst then m.map Prod.fst else m.map Prod.fst ++ [k] := by
  induction m with
  | nil => simp [addPattern]
  | cons q rest ih =>
    obtain ⟨k', l⟩ := q
    by_cases h : k' = k
    · simp [addPattern, h]
    · have hkk : ¬ (k = k') := fun e => h e.symm
      simp only [addPattern, if_neg h, List.map_cons, ih]
      by_cases h2 : k ∈ rest.map Prod.fst
      · simp [h2, hkk]
      · simp [h2, hkk]

theorem patternMap_keys_nodup (data : List Obs) :
    ((patternMap data).map Prod.fst).Nodup := by
  have main : ∀ (l : List Obs) (m : List (String × List Obs)),
      (m.map Prod.fst).Nodup →
      ((l.foldl (fun m o => addPattern m (obsKey o) o) m).map Prod.fst).Nodup := by
    intro l
    induction l with
    | nil => intro m hm; exact hm
    | cons o rest ih =>
      intro m hm
      refine ih _ ?_
      rw [keys_addPattern]
      split
      · exact hm
      · next hnotin => simp [List.nodup_append, hm, hnotin]
  exact main data [] (by simp)

theorem addPattern_self (m : List (String × List Obs)) (k : String) (o : Obs) :
    ∃ l, (k, l) ∈ addPattern m k o ∧ o ∈ l := by
  induction m with
  | nil => exact ⟨[o], by simp [addPattern]⟩
  | cons q rest ih =>
    obtain ⟨k', l'⟩ := q
    by_cases h : k' = k
    · subst h
      exact ⟨l' ++ [o], by simp [addPattern]⟩
    · obtain ⟨l, hl, ho⟩ := ih
      exact ⟨l, by simp only [addPattern, if_neg h]; exact List.mem_cons_of_mem _ hl, ho⟩

theorem addPattern_mono (m : List (String × List Obs)) (k : String) (o : Obs)
    {k0 : String} {l0 : List Obs} (h : (k0, l0) ∈ m) :
    ∃ l1, (k0, l1) ∈ addPattern m k o ∧ ∀ x ∈ l0, x ∈ l1 := by
  induction m with
  | nil => cases h
  | cons q rest ih =>
    obtain ⟨k', l'⟩ := q
    by_cases hk : k' = k
    · simp only [addPattern, if_pos hk]
      rcases List.mem_cons.mp h with he | h
      · obtain ⟨rfl, rfl⟩ := Prod.mk.injEq .. ▸ he
        exact ⟨l0 ++ [o], List.mem_cons_self _ _,
          fun x hx => List.mem_append_left _ hx⟩
      · exact ⟨l0, List.mem_cons_of_mem _ h, fun x hx => hx⟩
    · simp only [addPattern, if_neg hk]
      rcases List.mem_cons.mp h with he | h
      · exact ⟨l0, he ▸ List.mem_cons_self _ _, fun x hx => hx⟩
      · obtain ⟨l1, hl1, hsub⟩ := ih h
        exact ⟨l1, List.mem_cons_of_mem _ hl1, hsub⟩

theorem bucket_unique {m : List (String × List Obs)}
    (hnd : (m.map Prod.fst).Nodup) {k : String} {l1 l2 : List Obs}
    (h1 : (k, l1) ∈ m) (h2 : (k, l2) ∈ m) : l1 = l2 := by
  induction m with
  | nil => cases h1
  | cons q rest ih =>
    simp only [List.map_cons, List.nodup_cons] at hnd
    rcases List.mem_cons.mp h1 with e1 | h1' <;> rcases List.mem_cons.mp h2 with e2 | h2'
    · injection e1.trans e2.symm
    · rw [← e1] at hnd
      exact absurd (List.mem_map_of_mem Prod.fst h2') hnd.1
    · rw [← e2] at hnd
      exact absurd (List.mem_map_of_mem Prod.fst h1') hnd.1
    · exact ih hnd.2 h1' h2'

theorem foldl_addPattern_self (l : List Obs) (m : List (String × List Obs))
    {o : Obs} (h : (∃ l0, (obsKey o, l0) ∈ m ∧ o ∈ l0) ∨ o ∈ l) :
    ∃ l1, (obsKey o, l1) ∈ l.foldl (fun m x => addPattern m (obsKey x) x) m ∧
      o ∈ l1 := by
  induction l generalizing m with
  | nil =>
    rcases h with h | h
    · exact h
    · cases h
  | cons x xs ih =>
    simp only [List.foldl_cons]
    rcases h with ⟨l0, hl0, ho⟩ | h
    · refine ih _ (Or.inl ?_)
      obtain ⟨l1, hl1, hsub⟩ := addPattern_mono m (obsKey x) x hl0
      exact ⟨l1, hl1, hsub o ho⟩
    · rcases List.mem_cons.mp h with rfl | h
      · refine ih _ (Or.inl ?_)
        exact addPattern_self m (obsKey o) o
      · exact ih _ (Or.inr h)

theorem patternMap_mem_self (data : List Obs) {o : Obs} (h : o ∈ data) :
    ∃ l, (obsKey o, l) ∈ patternMap data ∧ o ∈ l :=
  foldl_addPattern_self data [] (Or.inr h)

theorem addPattern_elems (m : List (String × List Obs)) (k : String) (o : Obs)
    (P : Obs → Prop) (hm : ∀ q ∈ m, ∀ x ∈ q.2, P x) (ho : P o) :
    ∀ q ∈ addPattern m k o, ∀ x ∈ q.2, P x := by
  induction m with
  | nil =>
    intro q hq x hx
    simp only [addPattern, List.mem_singleton] at hq
    subst hq
    simp only [List.mem_singleton] at hx
    subst hx
    exact ho
  | cons p rest ih =>
    obtain ⟨k', l⟩ := p
    by_cases h : k' = k
    · simp only [addPattern, if_pos h]
      intro q hq x hx
      rcases List.mem_cons.mp hq with rfl | hq
      · rcases List.mem_append.mp hx with hx | hx
        · exact hm (k', l) (List.mem_cons_self _ _) x hx
        · simp only [List.mem_singleton] at hx
          subst hx
          exact ho
      · exact hm q (List.mem_cons_of_mem _ hq) x hx
    · simp only [addPattern, if_neg h]
      intro q hq x hx
      rcases List.mem_cons.mp hq with rfl | hq
      · exact hm (k', l) (List.mem_cons_self _ _) x hx
      · exact ih (fun q hq => hm q (List.mem_cons_of_mem _ hq)) q hq x hx

theorem patternMap_elems (data : List Obs) {p : String × List Obs}
    (hp : p ∈ patternMap data) {x : Obs} (hx : x ∈ p.2) : x ∈ data := by
  have main : ∀ (l : List Obs) (m : List (String × List Obs)),
      (∀ q ∈ m, ∀ x ∈ q.2, x ∈ data) → (∀ o ∈ l, o ∈ data) →
      ∀ q ∈ l.foldl (fun m o => addPattern m (obsKey o) o) m, ∀ x ∈ q.2,
        x ∈ data := by
    intro l
    induction l with
    | nil => intro m hm _; exact hm
    | cons o rest ih =>
      intro m hm hl
      exact ih _ (addPattern_elems m (obsKey o) o _ hm (hl o (List.mem_cons_self _ _)))
        (fun x hx => hl x (List.mem_cons_of_mem _ hx))
  exact main data [] (by simp) (fun o h => h) p hp x hx

theorem bySizeDesc_trans (a b c : List Obs) (h1 : bySizeDesc a b = true)
    (h2 : bySizeDesc b c = true) : bySizeDesc a c = true := by
  simp only [bySizeDesc, decide_eq_true_eq] at *
  omega

theorem bySizeDesc_total (a b : List Obs) :
    bySizeDesc a b = true ∨ bySizeDesc b a = true := by
  simp only [bySizeDesc, decide_eq_true_eq]
  omega

/-! ### C4: clustering by the composite key -/

/-- A Lighting observation at Site A with description `d`. -/
def lightA (d : String) : Obs :=
  ⟨none, some "Lighting", some "Site A", none, some d, none, none, none, none, none⟩

/-- A Lighting observation at a different location. -/
def lightB : Obs :=
  ⟨none, some "Lighting", some "Site B", none, none, none, none, none, none, none⟩

/-- The concrete input of the claim: three observations with identical
(category, location) and one with a different location. -/
def lightingExample : List Obs := [lightA "d1", lightA "d2", lightA "d3", lightB]

/-- C4 (amended): two observations land in the same cluster iff their
composite keys `category + "|" + location` (after defaults) are equal —
equal fields imply this, but the converse can fail when a category
contains the `"|"` delimiter; a cluster qualifies as recurring only with
3 or more members; qualifying clusters are ordered largest-first; and the
concrete Lighting example produces exactly one recurring cluster of
size 3. -/
theorem cluster_grouping_amended (data : List Obs) (o1 o2 : Obs)
    (h1 : o1 ∈ data) (h2 : o2 ∈ data) :
    (sameCluster data o1 o2 ↔ obsKey o1 = obsKey o2) ∧
    (∀ c ∈ repeatingClusters data, 3 ≤ c.length) ∧
    (repeatingClusters data).Pairwise (fun a b => b.length ≤ a.length) ∧
    repeatingClusters lightingExample = [[lightA "d1", lightA "d2", lightA "d3"]] := by
  refine ⟨?_, ?_, ?_, by decide⟩
  · constructor
    · rintro ⟨kl, hkl, m1, m2⟩
      rw [patternMap_conf data kl hkl o1 m1, patternMap_conf data kl hkl o2 m2]
    · intro hk
      obtain ⟨l1, hl1, ho1⟩ := patternMap_mem_self data h1
      obtain ⟨l2, hl2, ho2⟩ := patternMap_mem_self data h2
      rw [← hk] at hl2
      have he : l1 = l2 := bucket_unique (patternMap_keys_nodup data) hl1 hl2
      exact ⟨(obsKey o1, l1), hl1, ho1, he ▸ ho2⟩
  · intro c hc
    have hmem := (mem_insSort bySizeDesc).mp hc
    simpa using List.of_mem_filter hmem
  · exact (pairwise_insSort bySizeDesc bySizeDesc_trans bySizeDesc_total _).imp
      (fun h => by simpa [bySizeDesc] using h)

/-- An observation whose category itself contains the `"|"` delimiter. -/
def pipeObsA : Obs :=
  ⟨none, some "A|B", some "C", none, none, none, none, none, none, none⟩

/-- An observation with different fields but the same composite key. -/
def pipeObsB : Obs :=
  ⟨none, some "A", some "B|C", none, none, none, none, none, none, none⟩

/-- C4 (counterexample): the two observations with categories "A|B" / "A"
and locations "C" / "B|C" have different (category, location) pairs yet
land in the same cluster, because both composite keys are "A|B|C"; so
membership in a common cluster is not equivalent to exact equality of the
two fields. -/
theorem cluster_key_collision_cex :
    sameCluster [pipeObsA, pipeObsB] pipeObsA pipeObsB ∧
    ¬ (jsOr pipeObsA.category "Unknown" = jsOr pipeObsB.category "Unknown" ∧
       jsOr pipeObsA.location "Unknown location" =
         jsOr pipeObsB.location "Unknown location") := by decide

/-- C4 (witness): the amended equivalence instantiated at the Lighting
example, concluding common cluster membership from equal composite keys. -/
theorem cluster_grouping_witness :
    sameCluster lightingExample (lightA "d1") (lightA "d2") :=
  ((cluster_grouping_amended lightingExample (lightA "d1") (lightA "d2")
      (by decide) (by decide)).1).mpr (by decide)

/-! ### Lemmas about the capped sampler -/

theorem pushCapped_cons (cap : Nat) (acc : List Obs) (o : Obs) (rest : List Obs) :
    pushCapped cap acc (o :: rest) =
      pushCapped cap (if acc.length < cap then acc ++ [o] else acc) rest := rfl

theorem mem_pushCapped (cap : Nat) (acc xs : List Obs) {x : Obs}
    (h : x ∈ pushCapped cap acc xs) : x ∈ acc ∨ x ∈ xs := by
  induction xs generalizing acc with
  | nil => exact Or.inl h
  | cons o rest ih =>
    rw [pushCapped_cons] at h
    rcases ih _ h with h' | h'
    · by_cases hc : acc.length < cap
      · rw [if_pos hc] at h'
        rcases List.mem_append.mp h' with h'' | h''
        · exact Or.inl h''
        · simp only [List.mem_singleton] at h''
          exact Or.inr (h'' ▸ List.mem_cons_self _ _)
      · rw [if_neg hc] at h'
        exact Or.inl h'
    · exact Or.inr (List.mem_cons_of_mem _ h')

theorem mem_pushCapped_left (cap : Nat) (acc xs : List Obs) {x : Obs}
    (h : x ∈ acc) : x ∈ pushCapped cap acc xs := by
  induction xs generalizing acc with
  | nil => exact h
  | cons o rest ih =>
    rw [pushCapped_cons]
    by_cases hc : acc.length < cap
    · rw [if_pos hc]
      exact ih _ (List.mem_append_left _ h)
    · rw [if_neg hc]
      exact ih _ h

theorem length_pushCapped_le (cap : Nat) (acc xs : List Obs)
    (h : acc.length ≤ cap) : (pushCapped cap acc xs).length ≤ cap := by
  induction xs generalizing acc with
  | nil => exact h
  | cons o rest ih =>
    rw [pushCapped_cons]
    by_cases hc : acc.length < cap
    · rw [if_pos hc]
      exact ih _ (by simp; omega)
    · rw [if_neg hc]
      exact ih _ h

theorem pushCapped_of_room (cap : Nat) (acc xs : List Obs)
    (h : acc.length + xs.length ≤ cap) : pushCapped cap acc xs = acc ++ xs := by
  induction xs generalizing acc with
  | nil => simp [pushCapped]
  | cons o rest ih =>
    rw [pushCapped_cons]
    have hc : acc.length < cap := by simp at h; omega
    rw [if_pos hc, ih _ (by simp at h ⊢; omega)]
    simp

theorem mem_foldl_pushTake (cap : Nat) (clusters : List (List Obs))
    (acc : List Obs) {x : Obs}
    (h : x ∈ clusters.foldl (fun a c => pushCapped cap a (c.take 3)) acc) :
    x ∈ acc ∨ ∃ c ∈ clusters, x ∈ c := by
  induction clusters generalizing acc with
  | nil => exact Or.inl h
  | cons c rest ih =>
    simp only [List.foldl_cons] at h
    rcases ih _ h with h' | ⟨c', hc', hx⟩
    · rcases mem_pushCapped _ _ _ h' with h'' | h''
      · exact Or.inl h''
      · exact Or.inr ⟨c, List.mem_cons_self _ _, List.mem_of_mem_take h''⟩
    · exact Or.inr ⟨c', List.mem_cons_of_mem _ hc', hx⟩

theorem mem_foldl_pushTake_left (cap : Nat) (clusters : List (List Obs))
    (acc : List Obs) {x : Obs} (h : x ∈ acc) :
    x ∈ clusters.foldl (fun a c => pushCapped cap a (c.take 3)) acc := by
  induction clusters generalizing acc with
  | nil => exact h
  | cons c rest ih =>
    simp only [List.foldl_cons]
    exact ih _ (mem_pushCapped_left _ _ _ h)

theorem length_foldl_pushTake_le (cap : Nat) (clusters : List (List Obs))
    (acc : List Obs) (h : acc.length ≤ cap) :
    (clusters.foldl (fun a c => pushCapped cap a (c.take 3)) acc).length ≤ cap := by
  induction clusters generalizing acc with
  | nil => exact h
  | cons c rest ih =>
    simp only [List.foldl_cons]
    exact ih _ (length_pushCapped_le _ _ _ h)

/-! ### C3: the sample is bounded and drawn from the input -/

/-- Every element of a recurring cluster comes from the input. -/
theorem repeatingClusters_elems (data : List Obs) {c : List Obs}
    (hc : c ∈ repeatingClusters data) {x : Obs} (hx : x ∈ c) : x ∈ data := by
  have hc' := (mem_insSort bySizeDesc).mp hc
  have hc'' := List.mem_of_mem_filter hc'
  obtain ⟨p, hp, rfl⟩ := List.mem_map.mp hc''
  exact patternMap_elems data hp hx

/-- Every element of the step-1 HIGH slice comes from the input. -/
theorem criticalHigh_elems (parse : String → Int) (data : List Obs) {x : Obs}
    (hx : x ∈ criticalHigh parse data) : x ∈ data :=
  List.mem_of_mem_filter ((mem_insSort (newestFirst parse)).mp (List.mem_of_mem_take hx))

/-- C3 (amended): every sampled entry is an entry of the input and the
sample length never exceeds the cap — 60 for the `exampleObs` variant and
140 for the `takeFrom` variant; the no-duplicates part of the claim is
dropped, because a HIGH observation that also belongs to a recurring
cluster is pushed twice. -/
theorem sample_subset_cap_amended (parse : String → Int) (data : List Obs) :
    (∀ o ∈ exampleObs parse data, o ∈ data) ∧
    (exampleObs parse data).length ≤ MAX_EXAMPLES ∧
    (∀ o ∈ trimmed data, o ∈ data) ∧
    (trimmed data).length ≤ MAX_OBS_FOR_PROMPT := by
  have he2sub : ∀ o ∈ (repeatingClusters data).foldl
      (fun a c => pushCapped MAX_EXAMPLES a (c.take 3))
      (pushCapped MAX_EXAMPLES [] (criticalHigh parse data)), o ∈ data := by
    intro o ho
    rcases mem_foldl_pushTake _ _ _ ho with h | ⟨c, hc, hoc⟩
    · rcases mem_pushCapped _ _ _ h with h' | h'
      · cases h'
      · exact criticalHigh_elems parse data h'
    · exact repeatingClusters_elems data hc hoc
  have he2len : ((repeatingClusters data).foldl
      (fun a c => pushCapped MAX_EXAMPLES a (c.take 3))
      (pushCapped MAX_EXAMPLES [] (criticalHigh parse data))).length ≤ MAX_EXAMPLES :=
    length_foldl_pushTake_le _ _ _
      (length_pushCapped_le _ _ _ (by simp [MAX_EXAMPLES]))
  refine ⟨?_, ?_, ?_, ?_⟩
  · intro o ho
    simp only [exampleObs] at ho
    split at ho
    · rcases mem_pushCapped _ _ _ ho with h | h
      · exact he2sub o h
      · exact List.mem_of_mem_filter (List.mem_of_mem_take h)
    · exact he2sub o ho
  · simp only [exampleObs]
    split
    · exact length_pushCapped_le _ _ _ he2len
    · exact he2len
  · intro o ho
    have ho' := List.mem_of_mem_take ho
    rcases List.mem_append.mp ho' with h | h
    · rcases List.mem_append.mp h with h' | h'
      · exact List.mem_of_mem_filter h'
      · exact List.mem_of_mem_filter h'
    · exact List.mem_of_mem_filter h
  · exact List.length_take_le _ _

/-- A HIGH Fire observation at location A with description `d`. -/
def fireHigh (d : String) : Obs :=
  ⟨some "HIGH", some "Fire", some "A", none, some d, none, none, none, none, none⟩

/-- Three distinct HIGH observations sharing (category, location): they are
all pushed in step 1 and, forming a recurring cluster of size 3, pushed
again in step 2. -/
def cex3 : List Obs := [fireHigh "d1", fireHigh "d2", fireHigh "d3"]

/-- C3 (counterexample): the sample built from three distinct HIGH
observations of one recurring cluster contains each of them twice, so it is
not duplicate-free. -/
theorem sample_duplicate_cex : ¬ (exampleObs (fun _ => 0) cex3).Nodup := by
  decide

/-- C3 (witness): the amended subset and cap conclusions at the concrete
three-observation input. -/
theorem sample_subset_cap_witness :
    fireHigh "d1" ∈ cex3 ∧ (exampleObs (fun _ => 0) cex3).length ≤ MAX_EXAMPLES :=
  ⟨(sample_subset_cap_amended (fun _ => 0) cex3).1 (fireHigh "d1") (by decide),
   (sample_subset_cap_amended (fun _ => 0) cex3).2.1⟩

/-! ### C2: HIGH observations and the sample -/

/-- C2 (amended): in the `exampleObs` variant every HIGH observation of the
input appears in the sample provided the input has at most 30 HIGH
observations — the HIGH stage slices to the 30 newest, so beyond that a
HIGH item can be dropped even though the 60-cap still has room; in the
`takeFrom` variant the guarantee holds whenever the HIGH observations fit
the 140 cap. -/
theorem highRisk_included_amended (parse : String → Int) (data : List Obs) :
    ((data.filter isHigh).length ≤ 30 →
      ∀ o ∈ data, normRisk o.risk = "HIGH" → o ∈ exampleObs parse data) ∧
    ((data.filter isHigh).length ≤ MAX_OBS_FOR_PROMPT →
      ∀ o ∈ data, normRisk o.risk = "HIGH" → o ∈ trimmed data) := by
  constructor
  · intro h30 o ho hrisk
    have hhigh : isHigh o = true := by simp [isHigh, hrisk]
    have hof : o ∈ data.filter isHigh := List.mem_filter.mpr ⟨ho, hhigh⟩
    have hlen : (insSort (newestFirst parse) (data.filter isHigh)).length ≤ 30 := by
      rw [length_insSort]
      exact h30
    have hcrit : o ∈ criticalHigh parse data := by
      rw [criticalHigh, List.take_of_length_le hlen]
      exact (mem_insSort _).mpr hof
    have hroom : ([] : List Obs).length + (criticalHigh parse data).length
        ≤ MAX_EXAMPLES := by
      have h1 : (criticalHigh parse data).length ≤ 30 :=
        List.length_take_le _ _
      simp only [List.length_nil, MAX_EXAMPLES]
      omega
    have he1 : o ∈ pushCapped MAX_EXAMPLES [] (criticalHigh parse data) := by
      rw [pushCapped_of_room _ _ _ hroom]
      simpa using hcrit
    have he2 : o ∈ (repeatingClusters data).foldl
        (fun a c => pushCapped MAX_EXAMPLES a (c.take 3))
        (pushCapped MAX_EXAMPLES [] (criticalHigh parse data)) :=
      mem_foldl_pushTake_left _ _ _ he1
    simp only [exampleObs]
    split
    · exact mem_pushCapped_left _ _ _ he2
    · exact he2
  · intro h140 o ho hrisk
    have hhigh : isHigh o = true := by simp [isHigh, hrisk]
    have hof : o ∈ highs data := List.mem_filter.mpr ⟨ho, hhigh⟩
    have htake : (highs data).take MAX_OBS_FOR_PROMPT = highs data :=
      List.take_of_length_le h140
    rw [trimmed, List.append_assoc, List.take_append_eq_append_take, htake]
    exact List.mem_append_left _ hof

/-- The descriptions distinguishing the 31 HIGH observations. -/
def descStr (i : Nat) : String := ⟨List.replicate i 'a'⟩

/-- The i-th of 31 distinct HIGH observations sharing (category, location). -/
def high31 (i : Nat) : Obs :=
  ⟨some "HIGH", some "Fire", some "A", none, some (descStr i), none, none,
    none, none, none⟩

/-- Thirty-one distinct HIGH observations. -/
def cex2 : List Obs := (List.range 31).map high31

set_option maxRecDepth 40000 in
/-- C2 (counterexample): with 31 HIGH observations the sample holds only
the 30 sliced ones plus cluster repeats — 33 entries, well under the cap of
60 — yet the 31st HIGH observation is missing: a HIGH item is dropped while
cap room remains. -/
theorem highRisk_dropped_cex :
    high31 30 ∈ cex2 ∧ normRisk (high31 30).risk = "HIGH" ∧
    (exampleObs (fun _ => 0) cex2).length < MAX_EXAMPLES ∧
    high31 30 ∉ exampleObs (fun _ => 0) cex2 := by decide

/-- A single HIGH observation used to witness the amended inclusion. -/
def highW : Obs :=
  ⟨some "HIGH", none, none, none, none, none, none, none, none, none⟩

/-- C2 (witness): both amended conclusions at the singleton HIGH input. -/
theorem highRisk_included_witness :
    highW ∈ exampleObs (fun _ => 0) [highW] ∧ highW ∈ trimmed [highW] :=
  ⟨(highRisk_included_amended (fun _ => 0) [highW]).1 (by decide) highW
      (by decide) (by decide),
   (highRisk_included_amended (fun _ => 0) [highW]).2 (by decide) highW
      (by decide) (by decide)⟩

/-! ### Error analysis of the binary64 rounding model -/

theorem natLog2F_correct (fuel : Nat) : ∀ n : Nat, 1 ≤ n → n < 2 ^ fuel →
    2 ^ natLog2F fuel n ≤ n ∧ n < 2 ^ (natLog2F fuel n + 1) := by
  induction fuel with
  | zero =>
    intro n h1 h2
    simp only [pow_zero] at h2
    omega
  | succ fuel ih =>
    intro n h1 h2
    by_cases hn : n ≤ 1
    · have hone : n = 1 := by omega
      subst hone
      simp [natLog2F]
    · have h1' : 1 ≤ n / 2 := by omega
      have h2' : n / 2 < 2 ^ fuel := by
        rw [pow_succ] at h2
        omega
      obtain ⟨ha, hb⟩ := ih (n / 2) h1' h2'
      have hstep : natLog2F (fuel + 1) n = natLog2F fuel (n / 2) + 1 := by
        simp [natLog2F, hn]
      rw [hstep]
      constructor
      · rw [pow_succ]
        omega
      · rw [pow_succ]
        omega

theorem natLog2_correct {n : Nat} (h1 : 1 ≤ n) (h2 : n < 2 ^ 256) :
    2 ^ natLog2 n ≤ n ∧ n < 2 ^ (natLog2 n + 1) :=
  natLog2F_correct 256 n h1 h2

theorem natLog2_lt_of_lt {n j : Nat} (h1 : 1 ≤ n) (hj : j ≤ 256)
    (h : n < 2 ^ j) : natLog2 n < j := by
  by_contra hcon
  push_neg at hcon
  have h2 : n < 2 ^ 256 := lt_of_lt_of_le h (Nat.pow_le_pow_right (by norm_num) hj)
  have hlow := (natLog2_correct h1 h2).1
  have : 2 ^ j ≤ n := le_trans (Nat.pow_le_pow_right (by norm_num) hcon) hlow
  omega

theorem qLog2P_correct {p q : Nat} (hp : 1 ≤ p) (hq : 1 ≤ q)
    (hp2 : p < 2 ^ 256) (hq2 : q < 2 ^ 256) :
    (2 : ℚ) ^ qLog2P p q ≤ (p : ℚ) / q ∧ (p : ℚ) / q < 2 ^ (qLog2P p q + 1) := by
  obtain ⟨ha1, ha2⟩ := natLog2_correct hp hp2
  obtain ⟨hb1, hb2⟩ := natLog2_correct hq hq2
  have hq0 : (0 : ℚ) < (q : ℚ) := by exact_mod_cast hq
  have h2 : (2 : ℚ) ≠ 0 := two_ne_zero
  simp only [qLog2P]
  split
  next hc =>
    constructor
    · rw [zpow_sub₀ h2, zpow_natCast, zpow_natCast,
        div_le_div_iff (by positivity) hq0]
      have hNat : 2 ^ natLog2 p * q ≤ p * 2 ^ natLog2 q := by
        calc 2 ^ natLog2 p * q = q * 2 ^ natLog2 p := by ring
        _ ≤ p * 2 ^ natLog2 q := hc
      exact_mod_cast hNat
    · rw [show (natLog2 p : ℤ) - natLog2 q + 1
          = ((natLog2 p + 1 : Nat) : ℤ) - (natLog2 q : ℤ) by push_cast; ring,
        zpow_sub₀ h2, zpow_natCast, zpow_natCast,
        div_lt_div_iff hq0 (by positivity)]
      have hNat : p * 2 ^ natLog2 q < 2 ^ (natLog2 p + 1) * q := by
        calc p * 2 ^ natLog2 q < 2 ^ (natLog2 p + 1) * 2 ^ natLog2 q :=
              Nat.mul_lt_mul_of_lt_of_le ha2 (Nat.le_refl _)
                (Nat.pos_pow_of_pos _ (by norm_num))
        _ ≤ 2 ^ (natLog2 p + 1) * q := Nat.mul_le_mul (Nat.le_refl _) hb1
      exact_mod_cast hNat
  next hc =>
    have hcN : p * 2 ^ natLog2 q < q * 2 ^ natLog2 p := Nat.lt_of_not_le hc
    constructor
    · rw [show (natLog2 p : ℤ) - natLog2 q - 1
          = (natLog2 p : ℤ) - ((natLog2 q + 1 : Nat) : ℤ) by push_cast; ring,
        zpow_sub₀ h2, zpow_natCast, zpow_natCast,
        div_le_div_iff (by positivity) hq0]
      have hNat : 2 ^ natLog2 p * q ≤ p * 2 ^ (natLog2 q + 1) := by
        calc 2 ^ natLog2 p * q ≤ p * q := Nat.mul_le_mul ha1 (Nat.le_refl q)
        _ ≤ p * 2 ^ (natLog2 q + 1) := Nat.mul_le_mul (Nat.le_refl p) (le_of_lt hb2)
      exact_mod_cast hNat
    · rw [show (natLog2 p : ℤ) - natLog2 q - 1 + 1
          = (natLog2 p : ℤ) - (natLog2 q : ℤ) by ring,
        zpow_sub₀ h2, zpow_natCast, zpow_natCast,
        div_lt_div_iff hq0 (by positivity)]
      have hNat : p * 2 ^ natLog2 q < 2 ^ natLog2 p * q := by
        rw [Nat.mul_comm (2 ^ natLog2 p) q]
        exact hcN
      exact_mod_cast hNat

theorem rneFrac_err (a b : Nat) (hb : 1 ≤ b) :
    |((rneFrac a b : Nat) : ℚ) - (a : ℚ) / b| ≤ 1 / 2 := by
  have hb0 : (0 : ℚ) < (b : ℚ) := by exact_mod_cast hb
  have hmod : a % b < b := Nat.mod_lt _ hb
  have hsplit : (a : ℚ) / b = ((a / b : Nat) : ℚ) + ((a % b : Nat) : ℚ) / b := by
    have hN : a / b * b + a % b = a := Nat.div_add_mod' a b
    have hab : (a : ℚ) = ((a / b : Nat) : ℚ) * (b : ℚ) + ((a % b : Nat) : ℚ) := by
      calc (a : ℚ) = (((a / b * b + a % b : Nat)) : ℚ) := by rw [hN]
      _ = ((a / b : Nat) : ℚ) * (b : ℚ) + ((a % b : Nat) : ℚ) := by
            rw [Nat.cast_add, Nat.cast_mul]
    rw [hab, add_div, mul_div_cancel_right₀ _ (ne_of_gt hb0)]
  have hr0 : (0 : ℚ) ≤ ((a % b : Nat) : ℚ) / b := by positivity
  simp only [rneFrac]
  split
  next h1 =>
    have hhalf : ((a % b : Nat) : ℚ) / b ≤ 1 / 2 := by
      rw [div_le_div_iff hb0 (by norm_num)]
      exact_mod_cast (by omega : (a % b) * 2 ≤ 1 * b)
    rw [hsplit, show ((a / b : Nat) : ℚ) -
        (((a / b : Nat) : ℚ) + ((a % b : Nat) : ℚ) / b)
        = -(((a % b : Nat) : ℚ) / b) by ring, abs_neg, abs_of_nonneg hr0]
    exact hhalf
  next h1 =>
    split
    next h2 =>
      have hhalf : (1 : ℚ) / 2 ≤ ((a % b : Nat) : ℚ) / b := by
        rw [div_le_div_iff (by norm_num) hb0]
        exact_mod_cast (by omega : 1 * b ≤ (a % b) * 2)
      have hlt1 : ((a % b : Nat) : ℚ) / b < 1 := by
        rw [div_lt_one hb0]
        exact_mod_cast hmod
      rw [hsplit, show (((a / b + 1 : Nat)) : ℚ) -
          (((a / b : Nat) : ℚ) + ((a % b : Nat) : ℚ) / b)
          = 1 - ((a % b : Nat) : ℚ) / b by push_cast; ring,
        abs_of_nonneg (by linarith)]
      linarith
    next h2 =>
      have hreq : ((a % b : Nat) : ℚ) / b = 1 / 2 := by
        rw [div_eq_div_iff (ne_of_gt hb0) (by norm_num)]
        exact_mod_cast (by omega : (a % b) * 2 = 1 * b)
      split
      · rw [hsplit, hreq, show ((a / b : Nat) : ℚ) -
            (((a / b : Nat) : ℚ) + 1 / 2) = -(1 / 2) by ring, abs_neg,
          abs_of_nonneg (by norm_num : (0 : ℚ) ≤ 1 / 2)]
      · rw [hsplit, hreq, show (((a / b + 1 : Nat)) : ℚ) -
            (((a / b : Nat) : ℚ) + 1 / 2) = 1 / 2 by push_cast; ring,
          abs_of_nonneg (by norm_num : (0 : ℚ) ≤ 1 / 2)]

theorem rat_num_eq_mul_den (y : ℚ) : (y.num : ℚ) = y * y.den := by
  have hden : ((y.den : ℚ)) ≠ 0 := Nat.cast_ne_zero.mpr (Rat.den_pos y).ne'
  exact (div_eq_iff hden).mp (Rat.num_div_den y)

theorem den_div_natCast_dvd (a t : Nat) : ((a : ℚ) / (t : ℚ)).den ∣ t := by
  have h : (a : ℚ) / (t : ℚ) = Rat.divInt (a : ℤ) (t : ℤ) := by
    rw [Rat.divInt_eq_div]
    push_cast
    ring
  rw [h]
  exact_mod_cast Rat.den_dvd (a : ℤ) (t : ℤ)

theorem den_mul_natCast_dvd (y : ℚ) (n : Nat) : (y * (n : ℚ)).den ∣ y.den := by
  have h : y * (n : ℚ) = Rat.divInt (y.num * (n : ℤ)) (y.den : ℤ) := by
    rw [Rat.divInt_eq_div]
    push_cast
    rw [mul_div_right_comm, Rat.num_div_den]
  rw [h]
  exact_mod_cast Rat.den_dvd (y.num * (n : ℤ)) (y.den : ℤ)

/-- The shared tail bound of both `flPos` branches: one unit in the last
place at binade e, divided by two, stays below value / 2 ^ 52. -/
theorem binade_tail_le {p q : Nat}
    (he1 : (2 : ℚ) ^ qLog2P p q ≤ (p : ℚ) / q) :
    (2 : ℚ) ^ (qLog2P p q - 52) ≤ ((p : ℚ) / q) / 2 ^ 52 := by
  rw [zpow_sub₀ two_ne_zero, show ((2 : ℚ) ^ ((52 : ℤ))) = (2 : ℚ) ^ (52 : ℕ)
      from zpow_natCast 2 52]
  gcongr

theorem flPos_err {p q : Nat} (hp : 1 ≤ p) (hq : 1 ≤ q)
    (hp2 : p < 2 ^ 256) (hq2 : q < 2 ^ 256) :
    |flPos p q - (p : ℚ) / q| ≤ ((p : ℚ) / q) / 2 ^ 52 := by
  obtain ⟨he1, he2⟩ := qLog2P_correct hp hq hp2 hq2
  have htail := binade_tail_le he1
  simp only [flPos]
  split
  next hs =>
    set st := (52 - qLog2P p q).toNat with hstdef
    have hstz : (st : ℤ) = 52 - qLog2P p q := Int.toNat_of_nonneg hs
    have h2st : (0 : ℚ) < 2 ^ st := by positivity
    have hval : ((p * 2 ^ st : Nat) : ℚ) / q = ((p : ℚ) / q) * 2 ^ st := by
      push_cast
      ring
    have herr := rneFrac_err (p * 2 ^ st) q hq
    rw [hval] at herr
    have hdiff : ((rneFrac (p * 2 ^ st) q : Nat) : ℚ) / 2 ^ st - (p : ℚ) / q
        = (((rneFrac (p * 2 ^ st) q : Nat) : ℚ) - ((p : ℚ) / q) * 2 ^ st) / 2 ^ st := by
      field_simp
      ring
    have hpow : ((2 : ℚ) ^ st)⁻¹ = (2 : ℚ) ^ (qLog2P p q - 52) := by
      rw [show ((2 : ℚ) ^ st) = (2 : ℚ) ^ ((st : ℤ)) from (zpow_natCast 2 st).symm,
        hstz, ← zpow_neg]
      congr 1
      ring
    calc |((rneFrac (p * 2 ^ st) q : Nat) : ℚ) / 2 ^ st - (p : ℚ) / q|
        = |((rneFrac (p * 2 ^ st) q : Nat) : ℚ) - ((p : ℚ) / q) * 2 ^ st| / 2 ^ st := by
          rw [hdiff, abs_div, abs_of_pos h2st]
      _ ≤ (1 / 2) / 2 ^ st := by gcongr
      _ ≤ 1 * ((2 : ℚ) ^ st)⁻¹ := by
          rw [div_eq_mul_inv]
          exact mul_le_mul_of_nonneg_right (by norm_num) (by positivity)
      _ = (2 : ℚ) ^ (qLog2P p q - 52) := by rw [one_mul, hpow]
      _ ≤ ((p : ℚ) / q) / 2 ^ 52 := htail
  next hs =>
    set k := (-(52 - qLog2P p q)).toNat with hkdef
    have hkz : (k : ℤ) = qLog2P p q - 52 := by
      rw [hkdef, Int.toNat_of_nonneg (by omega), neg_sub]
    have hq2k : 1 ≤ q * 2 ^ k := Nat.one_le_iff_ne_zero.mpr
      (Nat.mul_ne_zero (by omega) (Nat.pos_iff_ne_zero.mp (Nat.pos_pow_of_pos _ (by norm_num))))
    have h2k : (0 : ℚ) < 2 ^ k := by positivity
    have hval : (p : ℚ) / ((q * 2 ^ k : Nat) : ℚ) = ((p : ℚ) / q) / 2 ^ k := by
      push_cast
      rw [div_div]
    have herr := rneFrac_err p (q * 2 ^ k) hq2k
    rw [hval] at herr
    have hdiff : ((rneFrac p (q * 2 ^ k) : Nat) : ℚ) * 2 ^ k - (p : ℚ) / q
        = (((rneFrac p (q * 2 ^ k) : Nat) : ℚ) - ((p : ℚ) / q) / 2 ^ k) * 2 ^ k := by
      field_simp
      ring
    have hpow : (2 : ℚ) ^ k = (2 : ℚ) ^ (qLog2P p q - 52) := by
      rw [show ((2 : ℚ) ^ k) = (2 : ℚ) ^ ((k : ℤ)) from (zpow_natCast 2 k).symm, hkz]
    calc |((rneFrac p (q * 2 ^ k) : Nat) : ℚ) * 2 ^ k - (p : ℚ) / q|
        = |((rneFrac p (q * 2 ^ k) : Nat) : ℚ) - ((p : ℚ) / q) / 2 ^ k| * 2 ^ k := by
          rw [hdiff, abs_mul, abs_of_pos h2k]
      _ ≤ (1 / 2) * 2 ^ k := by gcongr
      _ ≤ 1 * 2 ^ k := mul_le_mul_of_nonneg_right (by norm_num) (le_of_lt h2k)
      _ = (2 : ℚ) ^ (qLog2P p q - 52) := by rw [one_mul, hpow]
      _ ≤ ((p : ℚ) / q) / 2 ^ 52 := htail

theorem flPos_den_dvd (p q : Nat) :
    (flPos p q).den ∣ 2 ^ (53 + natLog2 q) := by
  simp only [flPos]
  split
  next hs =>
    have hst : (52 - qLog2P p q).toNat ≤ 53 + natLog2 q := by
      simp only [qLog2P]
      split <;> omega
    have hform : ((rneFrac (p * 2 ^ (52 - qLog2P p q).toNat) q : Nat) : ℚ) /
        2 ^ (52 - qLog2P p q).toNat
        = (((rneFrac (p * 2 ^ (52 - qLog2P p q).toNat) q : Nat) : ℤ) : ℚ) /
          (((2 ^ (52 - qLog2P p q).toNat : Nat) : ℤ) : ℚ) := by
      push_cast
      ring
    rw [hform, ← Rat.divInt_eq_div]
    have hdvd := Rat.den_dvd ((rneFrac (p * 2 ^ (52 - qLog2P p q).toNat) q : Nat) : ℤ)
      ((2 ^ (52 - qLog2P p q).toNat : Nat) : ℤ)
    have hdvd' : (Rat.divInt ((rneFrac (p * 2 ^ (52 - qLog2P p q).toNat) q : Nat) : ℤ)
        ((2 ^ (52 - qLog2P p q).toNat : Nat) : ℤ)).den ∣ 2 ^ (52 - qLog2P p q).toNat := by
      exact_mod_cast hdvd
    exact hdvd'.trans (pow_dvd_pow 2 hst)
  next hs =>
    have hform : ((rneFrac p (q * 2 ^ (-(52 - qLog2P p q)).toNat) : Nat) : ℚ) *
        2 ^ (-(52 - qLog2P p q)).toNat
        = (((rneFrac p (q * 2 ^ (-(52 - qLog2P p q)).toNat) *
            2 ^ (-(52 - qLog2P p q)).toNat : Nat)) : ℚ) := by
      push_cast
      ring
    rw [hform, Rat.den_natCast]
    exact one_dvd _

theorem flDouble_err {x : ℚ} (hx : 0 < x) (hn : x.num < 2 ^ 256)
    (hd : x.den < 2 ^ 256) : |flDouble x - x| ≤ x / 2 ^ 52 := by
  have hnum : 0 < x.num := Rat.num_pos.mpr hx
  have hp : 1 ≤ x.num.toNat := by omega
  have hq : 1 ≤ x.den := Rat.den_pos x
  have hval : ((x.num.toNat : Nat) : ℚ) / (x.den : ℚ) = x := by
    rw [show ((x.num.toNat : Nat) : ℚ) = ((x.num.toNat : ℤ) : ℚ) by push_cast; ring,
      Int.toNat_of_nonneg hnum.le, Rat.num_div_den]
  have hp2 : x.num.toNat < 2 ^ 256 := by omega
  have herr := flPos_err hp hq hp2 hd
  rw [hval] at herr
  rw [flDouble, if_neg (not_le.mpr hx)]
  exact herr

theorem flDouble_den_dvd (x : ℚ) (hx : 0 < x) :
    (flDouble x).den ∣ 2 ^ (53 + natLog2 x.den) := by
  rw [flDouble, if_neg (not_le.mpr hx)]
  exact flPos_den_dvd _ _

theorem flDouble_pos {x : ℚ} (hx : 0 < x) (hn : x.num < 2 ^ 256)
    (hd : x.den < 2 ^ 256) : 0 < flDouble x := by
  have herr := flDouble_err hx hn hd
  have h1 := (abs_le.mp herr).1
  have hsmall : x / 2 ^ 52 < x := div_lt_self hx (by norm_num)
  linarith

theorem floor_diff_le_one {a b : ℚ} (h : |a - b| < 1) :
    (⌊a⌋ - ⌊b⌋).natAbs ≤ 1 := by
  obtain ⟨h1, h2⟩ := abs_sub_lt_iff.mp h
  have hu : ⌊a⌋ ≤ ⌊b⌋ + 1 := by
    calc ⌊a⌋ ≤ ⌊b + 1⌋ := Int.floor_le_floor (by linarith)
    _ = ⌊b + ((1 : ℤ) : ℚ)⌋ := by norm_num
    _ = ⌊b⌋ + 1 := Int.floor_add_int b 1
  have hl : ⌊b⌋ - 1 ≤ ⌊a⌋ := by
    calc ⌊b⌋ - 1 = ⌊b + ((-1 : ℤ) : ℚ)⌋ := by
          rw [Int.floor_add_int b (-1)]
          omega
    _ ≤ ⌊a⌋ := Int.floor_le_floor (by push_cast; linarith)
  omega

theorem getCount_le_sum (m : List (String × Nat)) (k : String) :
    getCount m k ≤ (m.map Prod.snd).sum := by
  induction m with
  | nil => simp [getCount]
  | cons p rest ih =>
    obtain ⟨k', v⟩ := p
    by_cases h : k' = k
    · simp only [getCount, if_pos h, List.map_cons, List.sum_cons]
      omega
    · simp only [getCount, if_neg h, List.map_cons, List.sum_cons]
      omega

theorem highCount_le_length (data : List Obs) :
    getCount (riskCount data) "HIGH" ≤ data.length := by
  have hsum := sum_foldl_bump (fun o => normRisk o.risk) data
    [("HIGH", 0), ("MEDIUM", 0), ("LOW", 0)]
  have hle := getCount_le_sum (riskCount data) "HIGH"
  rw [riskCount] at hle ⊢
  simp only [hsum] at hle
  simpa using hle

theorem flDouble_zero : flDouble 0 = 0 := by
  rw [flDouble, if_pos le_rfl]

/-- C8 (amended): the rendered percentage is the binary64 evaluation of
`Math.round((totalHigh / totalObservations) * 100)`; it differs from exact
integer rounding of count / total × 100 by at most one percentage point
(whenever the total is below 2 ^ 53, where JavaScript integer counts are
still exact), and a zero total is guarded to the text "0%". -/
theorem percentage_binary64_amended (data : List Obs) :
    (0 < data.length → data.length < 2 ^ 53 →
      (pctHigh data -
        (specPct (getCount (riskCount data) "HIGH") data.length : Int)).natAbs ≤ 1 ∧
      highPctText data = toString (pctHigh data) ++ "%") ∧
    (data.length = 0 → pctHigh data = 0 ∧ highPctText data = "0%") := by
  constructor
  · intro hpos hlt
    refine ⟨?_, by simp [highPctText, hpos]⟩
    have hht : getCount (riskCount data) "HIGH" ≤ data.length :=
      highCount_le_length data
    rw [pctHigh, if_pos hpos, specPct_eq_floor _ _ hpos]
    by_cases hzero : getCount (riskCount data) "HIGH" = 0
    · rw [hzero]
      simp only [Nat.cast_zero, zero_div, flDouble_zero, zero_mul, Nat.mul_zero,
        zero_add]
      norm_num
    · have hpos1 : 1 ≤ getCount (riskCount data) "HIGH" :=
        Nat.one_le_iff_ne_zero.mpr hzero
      set h := getCount (riskCount data) "HIGH" with hh
      set t := data.length with ht
      have ht0 : (0 : ℚ) < (t : ℚ) := by exact_mod_cast hpos
      have hx : (0 : ℚ) < (h : ℚ) / t := div_pos (by exact_mod_cast hpos1) ht0
      have hx1 : (h : ℚ) / t ≤ 1 := by
        rw [div_le_one ht0]
        exact_mod_cast hht
      set x : ℚ := (h : ℚ) / t with hxdef
      have hxden_dvd : x.den ∣ t := den_div_natCast_dvd h t
      have hxden_le : x.den ≤ t := Nat.le_of_dvd hpos hxden_dvd
      have hxden : x.den < 2 ^ 53 := lt_of_le_of_lt hxden_le hlt
      have hxnum : x.num < 2 ^ 53 := by
        have h2 : (x.num : ℚ) ≤ (x.den : ℚ) := by
          rw [rat_num_eq_mul_den x]
          calc x * x.den ≤ 1 * x.den :=
                mul_le_mul_of_nonneg_right hx1 (by positivity)
          _ = x.den := one_mul _
        have h3 : x.num ≤ (x.den : ℤ) := by exact_mod_cast h2
        have h4 : (x.den : ℤ) < 2 ^ 53 := by exact_mod_cast hxden
        omega
      have hxnum256 : x.num < 2 ^ 256 := lt_of_lt_of_le hxnum (by norm_num)
      have hxden256 : x.den < 2 ^ 256 := lt_of_lt_of_le hxden (by norm_num)
      have herr1 := flDouble_err hx hxnum256 hxden256
      have hd1pos : 0 < flDouble x := flDouble_pos hx hxnum256 hxden256
      have hd1den := flDouble_den_dvd x hx
      set d1 : ℚ := flDouble x with hd1def
      have herr1' := abs_le.mp herr1
      have hxle52 : x / 2 ^ 52 ≤ 1 := by
        calc x / 2 ^ 52 ≤ 1 / 2 ^ 52 := by gcongr
        _ ≤ 1 := by norm_num
      have hd1le : d1 ≤ 2 := by linarith [herr1'.2]
      set y : ℚ := d1 * 100 with hydef
      have hypos : 0 < y := by
        rw [hydef]
        exact mul_pos hd1pos (by norm_num)
      have hyle : y ≤ 200 := by
        rw [hydef]
        linarith
      have hlog : natLog2 x.den ≤ 52 := by
        have := natLog2_lt_of_lt (Rat.den_pos x) (by norm_num) hxden
        omega
      have hyden_dvd : y.den ∣ 2 ^ 105 := by
        have h1 : y.den ∣ d1.den := by
          rw [hydef, show (100 : ℚ) = ((100 : ℕ) : ℚ) by norm_num]
          exact den_mul_natCast_dvd d1 100
        refine h1.trans (hd1den.trans (pow_dvd_pow 2 ?_))
        omega
      have hyden : y.den ≤ 2 ^ 105 := Nat.le_of_dvd (by norm_num) hyden_dvd
      have hyden256 : y.den < 2 ^ 256 := lt_of_le_of_lt hyden (by norm_num)
      have hynum256 : y.num < 2 ^ 256 := by
        have h2 : (y.num : ℚ) ≤ 200 * 2 ^ 105 := by
          rw [rat_num_eq_mul_den y]
          have hd : (y.den : ℚ) ≤ (2 : ℚ) ^ 105 := by exact_mod_cast hyden
          calc y * y.den ≤ 200 * y.den :=
                mul_le_mul_of_nonneg_right hyle (by positivity)
          _ ≤ 200 * 2 ^ 105 := by gcongr
        have h3 : (y.num : ℚ) < (2 : ℚ) ^ 256 := lt_of_le_of_lt h2 (by norm_num)
        exact_mod_cast h3
      have herr2 := flDouble_err hypos hynum256 hyden256
      set v : ℚ := flDouble y with hvdef
      apply floor_diff_le_one
      have hval : ((100 * h : Nat) : ℚ) / t = 100 * x := by
        rw [hxdef]
        push_cast
        ring
      rw [hval]
      have hdiff1 : |y - 100 * x| ≤ 100 * (x / 2 ^ 52) := by
        rw [hydef]
        calc |d1 * 100 - 100 * x| = 100 * |d1 - x| := by
              rw [show d1 * 100 - 100 * x = 100 * (d1 - x) by ring, abs_mul,
                abs_of_pos (by norm_num : (0 : ℚ) < 100)]
        _ ≤ 100 * (x / 2 ^ 52) := by gcongr
      calc |v + 1 / 2 - (100 * x + 1 / 2)|
          = |v - 100 * x| := by
            rw [show v + 1 / 2 - (100 * x + 1 / 2) = v - 100 * x by ring]
        _ ≤ |v - y| + |y - 100 * x| := abs_sub_le v y (100 * x)
        _ ≤ y / 2 ^ 52 + 100 * (x / 2 ^ 52) := add_le_add herr2 hdiff1
        _ ≤ 200 / 2 ^ 52 + 100 * (1 / 2 ^ 52) := by gcongr
        _ < 1 := by norm_num
  · intro h0
    simp [pctHigh, highPctText, h0]

/-- Twenty-three HIGH observations out of forty. -/
def cexC8 : List Obs := List.replicate 23 highW ++ List.replicate 17 emptyObs

set_option maxRecDepth 400000 in
/-- C8 (counterexample): at 23 HIGH of 40 observations the binary64
evaluation renders 57 — fl(fl(23/40) · 100) lands just below 57.5 — while
exact integer rounding of 23/40 × 100 = 57.5 gives 58, so the rendered
percentage is not the exact integer rounding of count / total × 100. -/
theorem percentage_exact_rounding_cex :
    ¬ (pctHigh cexC8 =
        (specPct (getCount (riskCount cexC8) "HIGH") cexC8.length : Int)) := by
  with_unfolding_all decide

/-- C8 (witness): the amended bound and the rendering at one HIGH
observation of three, where the double evaluation and the exact rounding
agree at 33. -/
theorem percentage_binary64_witness :
    (pctHigh [highW, emptyObs, emptyObs] -
      (specPct (getCount (riskCount [highW, emptyObs, emptyObs]) "HIGH")
        ([highW, emptyObs, emptyObs] : List Obs).length : Int)).natAbs ≤ 1 ∧
    highPctText [highW, emptyObs, emptyObs] =
      toString (pctHigh [highW, emptyObs, emptyObs]) ++ "%" :=
  (percentage_binary64_amended [highW, emptyObs, emptyObs]).1 (by decide) (by decide)

end Siskon
